import Mathlib

/-!
Verification of the CSV repair and reconciliation pipeline of the
fitness-journey repository (gymProgress notebook).  Strings are embedded
as lists of characters; pandas frames as lists of row structures; Python
exceptions as an explicit error type.
-/

namespace FitnessJourney

/-- Strings of the Python source, embedded as lists of characters. -/
abbrev Str := List Char

/-- Conversion from Lean string literals to the embedded string type. -/
def toL (s : String) : Str := s.toList

/-- Python exceptions that the repair functions can raise. -/
inductive PyErr where
  | indexError
  | valueError
  | stopIteration
deriving DecidableEq

/-- Python's `",".join(fields)`. -/
def joinComma : List Str → Str
  | [] => []
  | [f] => f
  | f :: g :: fs => f ++ ',' :: joinComma (g :: fs)

/-- Python's `line.count(",")`. -/
def countCommas (s : Str) : Nat := s.count ','

/-- Python's `line.split(",")`. -/
def splitComma : Str → List Str
  | [] => [[]]
  | c :: cs =>
    match splitComma cs with
    | [] => [[]]
    | f :: fs => if c = ',' then [] :: f :: fs else (c :: f) :: fs

/-- Python's `part and part[0] == " "`. -/
def headIsSpace : Str → Bool
  | [] => false
  | a :: _ => a = ' '

/-- Python's `part and part[0].isdigit()`. -/
def headIsDigit : Str → Bool
  | [] => false
  | a :: _ => a.isDigit

/-- One iteration of the comment-merging loop of `replace_comma_in_comments`:
`acc` is `fixed_parts` in reverse order (most recent part first).
A part starting with a space is appended to the previous part with `';'`;
a part starting with a digit is appended with `'.'` when the previous part
ends in a digit (indexing into an empty previous part raises IndexError);
otherwise the part starts a new entry. -/
def mergeStep (acc : List Str) (part : Str) : Except PyErr (List Str) :=
  match acc with
  | [] => .error .indexError
  | last :: rest =>
    if headIsSpace part then .ok ((last ++ ';' :: part) :: rest)
    else if headIsDigit part then
      match last.getLast? with
      | none => .error .indexError
      | some c =>
        if c.isDigit then .ok ((last ++ '.' :: part) :: rest)
        else .ok (part :: last :: rest)
    else .ok (part :: last :: rest)

/-- The comment-merging loop of `replace_comma_in_comments`, aborting at the
first raised exception. -/
def foldMerge (acc : List Str) : List Str → Except PyErr (List Str)
  | [] => .ok acc
  | p :: ps =>
    match mergeStep acc p with
    | .error e => .error e
    | .ok acc' => foldMerge acc' ps

/-- The full comment merging: start from `[comment_parts[0]]`, fold
`mergeStep` over the remaining parts, and return `fixed_parts` in order. -/
def mergeComments (c0 : Str) (restParts : List Str) : Except PyErr (List Str) :=
  match foldMerge [c0] restParts with
  | .error e => .error e
  | .ok acc => .ok acc.reverse

/-- `line.split(",")` after the row has been joined back into one string. -/
def fieldsOf (row : List Str) : List Str := splitComma (joinComma row)

/-- The comment fields of a row: Python's `line.split(",")[14:-2]`. -/
def commentSlice (row : List Str) : List Str :=
  ((fieldsOf row).take ((fieldsOf row).length - 2)).drop 14

/-- The per-row body of the loop of `replace_comma_in_comments`: a row with
more commas (after joining) than the header is split into the first 14
fields, the comment fields `[14:-2]`, and the last two fields; the comment
fields are merged; more than two merged parts raises ValueError.  A row
with at most as many commas as the header is re-split and kept. -/
def fixRow (columnCount : Nat) (row : List Str) : Except PyErr (List Str) :=
  if columnCount < countCommas (joinComma row) then
    match commentSlice row with
    | [] => .error .indexError
    | c0 :: restParts =>
      match mergeComments c0 restParts with
      | .error e => .error e
      | .ok fixedParts =>
        if 2 < fixedParts.length then .error .valueError
        else .ok ((fieldsOf row).take 14 ++ fixedParts ++
            (fieldsOf row).drop ((fieldsOf row).length - 2))
  else .ok (fieldsOf row)

/-- Error-propagating map over the data rows, mirroring the Python `for`
loop that aborts at the first raised exception. -/
def mapE (f : List Str → Except PyErr (List Str)) :
    List (List Str) → Except PyErr (List (List Str))
  | [] => .ok []
  | r :: rs =>
    match f r with
    | .error e => .error e
    | .ok r' =>
      match mapE f rs with
      | .error e => .error e
      | .ok rs' => .ok (r' :: rs')

/-- `replace_comma_in_comments`: the first row is the header (taking it from
an empty iterator raises StopIteration); every later row is repaired by
`fixRow` against the header's comma count. -/
def replace_comma_in_comments (rows : List (List Str)) :
    Except PyErr (List (List Str)) :=
  match rows with
  | [] => .error .stopIteration
  | header :: rest =>
    match mapE (fixRow (countCommas (joinComma header))) rest with
    | .error e => .error e
    | .ok fixedTail => .ok (header :: fixedTail)

instance : DecidableEq (Except PyErr (List (List Str))) := fun a b =>
  match a, b with
  | .ok x, .ok y => decidable_of_iff (x = y) (by simp)
  | .error x, .error y => decidable_of_iff (x = y) (by simp)
  | .ok _, .error _ => isFalse (by simp)
  | .error _, .ok _ => isFalse (by simp)

example :
    replace_comma_in_comments [[toL "a", toL "b"], [toL "x", toL "y", toL "z"]] =
      .error .indexError := by decide

example :
    replace_comma_in_comments
      [List.replicate 17 (toL "h"),
        List.replicate 14 (toL "a") ++ [toL "x", toL " y", toL "z", toL "e1", toL "e2"]] =
      .ok [List.replicate 17 (toL "h"),
        List.replicate 14 (toL "a") ++ [toL "x; y", toL "z", toL "e1", toL "e2"]] := by
  decide

theorem splitComma_ne_nil (s : Str) : splitComma s ≠ [] := by
  cases s with
  | nil => simp [splitComma]
  | cons c cs =>
    unfold splitComma
    cases h : splitComma cs with
    | nil => simp
    | cons f fs => by_cases hc : c = ',' <;> simp [hc]

theorem countCommas_comma_cons (cs : Str) :
    countCommas (',' :: cs) = countCommas cs + 1 := by
  simp [countCommas, List.count_cons]

theorem countCommas_cons_of_ne (c : Char) (cs : Str) (hc : c ≠ ',') :
    countCommas (c :: cs) = countCommas cs := by
  simp [countCommas, List.count_cons, Ne.symm hc]

theorem length_splitComma (s : Str) : (splitComma s).length = countCommas s + 1 := by
  induction s with
  | nil => simp [splitComma, countCommas]
  | cons c cs ih =>
    rcases h : splitComma cs with _ | ⟨f, fs⟩
    · exact absurd h (splitComma_ne_nil cs)
    · rw [h] at ih
      by_cases hc : c = ','
      · subst hc
        simp [splitComma, h, countCommas_comma_cons]
        simpa [countCommas] using ih
      · rw [countCommas_cons_of_ne c cs hc]
        simp [splitComma, h, hc]
        simpa [countCommas] using ih

theorem joinComma_cons_head (c : Char) (f : Str) (fs : List Str) :
    joinComma ((c :: f) :: fs) = c :: joinComma (f :: fs) := by
  cases fs <;> simp [joinComma]

theorem joinComma_splitComma (s : Str) : joinComma (splitComma s) = s := by
  induction s with
  | nil => simp [splitComma, joinComma]
  | cons c cs ih =>
    rcases h : splitComma cs with _ | ⟨f, fs⟩
    · exact absurd h (splitComma_ne_nil cs)
    · rw [h] at ih
      by_cases hc : c = ','
      · subst hc
        simpa [splitComma, h, joinComma] using ih
      · simpa [splitComma, h, hc, joinComma_cons_head] using ih

theorem not_comma_mem_splitComma (s : Str) : ∀ f ∈ splitComma s, ',' ∉ f := by
  induction s with
  | nil => simp [splitComma]
  | cons c cs ih =>
    rcases h : splitComma cs with _ | ⟨f, fs⟩
    · exact absurd h (splitComma_ne_nil cs)
    · rw [h] at ih
      by_cases hc : c = ','
      · subst hc
        simp only [splitComma, h, if_pos rfl]
        intro g hg
        rcases List.mem_cons.mp hg with rfl | hg
        · simp
        · exact ih g hg
      · simp only [splitComma, h, if_neg hc]
        intro g hg
        rcases List.mem_cons.mp hg with rfl | hg
        · simp only [List.mem_cons, not_or]
          exact ⟨fun hcc => hc hcc.symm, ih f (by simp)⟩
        · exact ih g (List.mem_cons_of_mem f hg)

theorem countCommas_joinComma_of_commaFree (parts : List Str)
    (h : ∀ p ∈ parts, ',' ∉ p) :
    countCommas (joinComma parts) = parts.length - 1 := by
  induction parts with
  | nil => simp [joinComma, countCommas]
  | cons f fs ih =>
    cases fs with
    | nil =>
      simp [joinComma, countCommas, List.count_eq_zero]
      exact h f (by simp)
    | cons g gs =>
      have hf : ',' ∉ f := h f (by simp)
      have hrest : ∀ p ∈ g :: gs, ',' ∉ p := fun p hp => h p (by simp [hp])
      have h1 := ih hrest
      have hf0 : List.count ',' f = 0 := List.count_eq_zero.mpr hf
      simp only [joinComma, countCommas] at h1 ⊢
      rw [List.count_append, hf0, List.count_cons]
      simp only [beq_self_eq_true, if_true]
      simp only [List.length_cons] at h1 ⊢
      omega

theorem not_mem_append_sep {last part : Str} {c : Char}
    (hlast : ',' ∉ last) (hp : ',' ∉ part) (hc : c ≠ ',') :
    ',' ∉ last ++ c :: part := by
  intro hmem
  rcases List.mem_append.mp hmem with h | h
  · exact hlast h
  · rcases List.mem_cons.mp h with h | h
    · exact hc h.symm
    · exact hp h

theorem mergeStep_commaFree {acc acc' : List Str} {part : Str}
    (h : mergeStep acc part = .ok acc')
    (hacc : ∀ x ∈ acc, ',' ∉ x) (hp : ',' ∉ part) :
    ∀ x ∈ acc', ',' ∉ x := by
  cases acc with
  | nil => simp [mergeStep] at h
  | cons last rest =>
    have hlast : ',' ∉ last := hacc last (by simp)
    have hrest : ∀ x ∈ rest, ',' ∉ x := fun x hx => hacc x (by simp [hx])
    simp only [mergeStep] at h
    by_cases h1 : headIsSpace part = true
    · rw [if_pos h1] at h
      injection h with h; subst h
      intro x hx
      rcases List.mem_cons.mp hx with rfl | hx
      · exact not_mem_append_sep hlast hp (by decide)
      · exact hrest x hx
    · rw [if_neg h1] at h
      by_cases h2 : headIsDigit part = true
      · rw [if_pos h2] at h
        cases hl : last.getLast? with
        | none => simp [hl] at h
        | some ch =>
          simp only [hl] at h
          by_cases h3 : ch.isDigit
          · rw [if_pos h3] at h
            injection h with h; subst h
            intro x hx
            rcases List.mem_cons.mp hx with rfl | hx
            · exact not_mem_append_sep hlast hp (by decide)
            · exact hrest x hx
          · rw [if_neg h3] at h
            injection h with h; subst h
            intro x hx
            rcases List.mem_cons.mp hx with rfl | hx
            · exact hp
            · rcases List.mem_cons.mp hx with rfl | hx
              · exact hlast
              · exact hrest x hx
      · rw [if_neg h2] at h
        injection h with h; subst h
        intro x hx
        rcases List.mem_cons.mp hx with rfl | hx
        · exact hp
        · rcases List.mem_cons.mp hx with rfl | hx
          · exact hlast
          · exact hrest x hx

theorem foldMerge_commaFree :
    ∀ (ps : List Str) (acc res : List Str),
      foldMerge acc ps = .ok res →
      (∀ x ∈ acc, ',' ∉ x) → (∀ p ∈ ps, ',' ∉ p) →
      ∀ x ∈ res, ',' ∉ x := by
  intro ps
  induction ps with
  | nil =>
    intro acc res h hacc _
    simp only [foldMerge] at h
    injection h with h; subst h
    exact hacc
  | cons p ps ih =>
    intro acc res h hacc hp
    simp only [foldMerge] at h
    cases hm : mergeStep acc p with
    | error e => simp [hm] at h
    | ok acc' =>
      simp only [hm] at h
      exact ih acc' res h (mergeStep_commaFree hm hacc (hp p (by simp)))
        (fun q hq => hp q (by simp [hq]))

theorem mergeComments_commaFree {c0 : Str} {restParts parts : List Str}
    (h : mergeComments c0 restParts = .ok parts)
    (h0 : ',' ∉ c0) (hr : ∀ p ∈ restParts, ',' ∉ p) :
    ∀ x ∈ parts, ',' ∉ x := by
  unfold mergeComments at h
  cases hf : foldMerge [c0] restParts with
  | error e => simp [hf] at h
  | ok acc =>
    simp only [hf] at h
    injection h with h; subst h
    intro x hx
    refine foldMerge_commaFree restParts [c0] acc hf ?_ hr x (List.mem_reverse.mp hx)
    intro y hy
    rcases List.mem_cons.mp hy with rfl | hy
    · exact h0
    · simp at hy

theorem mergeStep_ne_valueError (acc : List Str) (part : Str) :
    mergeStep acc part ≠ .error .valueError := by
  unfold mergeStep
  cases acc with
  | nil => simp
  | cons last rest =>
    by_cases h1 : headIsSpace part = true
    · simp [h1]
    · by_cases h2 : headIsDigit part = true
      · simp only [h1, h2, if_false, if_true, Bool.false_eq_true]
        cases last.getLast? with
        | none => simp
        | some ch => by_cases h3 : ch.isDigit <;> simp [h3]
      · simp [h1, h2]

theorem foldMerge_ne_valueError :
    ∀ (ps : List Str) (acc : List Str), foldMerge acc ps ≠ .error .valueError := by
  intro ps
  induction ps with
  | nil => intro acc; simp [foldMerge]
  | cons p ps ih =>
    intro acc
    simp only [foldMerge]
    cases hm : mergeStep acc p with
    | error e =>
      simp only
      intro hc
      injection hc with hc
      subst hc
      exact mergeStep_ne_valueError acc p hm
    | ok acc' => exact ih acc'

theorem mergeComments_ne_valueError (c0 : Str) (restParts : List Str) :
    mergeComments c0 restParts ≠ .error .valueError := by
  unfold mergeComments
  cases hf : foldMerge [c0] restParts with
  | error e =>
    simp only
    intro hc
    injection hc with hc
    subst hc
    exact foldMerge_ne_valueError restParts [c0] hf
  | ok acc => simp

theorem fixRow_ok_bound {cc : Nat} {row l : List Str}
    (hcc : 17 ≤ cc) (h : fixRow cc row = .ok l) :
    countCommas (joinComma l) ≤ cc := by
  unfold fixRow at h
  by_cases hgt : cc < countCommas (joinComma row)
  · rw [if_pos hgt] at h
    cases hcs : commentSlice row with
    | nil => rw [hcs] at h; simp at h
    | cons c0 restParts =>
      rw [hcs] at h
      cases hm : mergeComments c0 restParts with
      | error e => simp [hm] at h
      | ok fixedParts =>
        simp only [hm] at h
        by_cases hlen : 2 < fixedParts.length
        · rw [if_pos hlen] at h; simp at h
        · rw [if_neg hlen] at h
          injection h with h; subst h
          have hfields : ∀ f ∈ fieldsOf row, ',' ∉ f :=
            not_comma_mem_splitComma (joinComma row)
          have htake : ∀ f ∈ (fieldsOf row).take 14, ',' ∉ f :=
            fun f hf => hfields f (List.take_subset _ _ hf)
          have hdrop : ∀ f ∈ (fieldsOf row).drop ((fieldsOf row).length - 2), ',' ∉ f :=
            fun f hf => hfields f (List.drop_subset _ _ hf)
          have hcsub : ∀ f ∈ commentSlice row, ',' ∉ f := by
            intro f hf
            unfold commentSlice at hf
            exact hfields f (List.take_subset _ _ (List.drop_subset _ _ hf))
          have hc0 : ',' ∉ c0 := hcsub c0 (by rw [hcs]; simp)
          have hrp : ∀ p ∈ restParts, ',' ∉ p :=
            fun p hp => hcsub p (by rw [hcs]; simp [hp])
          have hfp := mergeComments_commaFree hm hc0 hrp
          have hall : ∀ p ∈ (fieldsOf row).take 14 ++ fixedParts ++
              (fieldsOf row).drop ((fieldsOf row).length - 2), ',' ∉ p := by
            intro p hp
            rcases List.mem_append.mp hp with hp | hp
            · rcases List.mem_append.mp hp with hp | hp
              · exact htake p hp
              · exact hfp p hp
            · exact hdrop p hp
          rw [countCommas_joinComma_of_commaFree _ hall]
          have l1 : ((fieldsOf row).take 14).length ≤ 14 := by
            rw [List.length_take]; omega
          have l2 : ((fieldsOf row).drop ((fieldsOf row).length - 2)).length ≤ 2 := by
            rw [List.length_drop]; omega
          simp only [List.length_append]
          omega
  · rw [if_neg hgt] at h
    injection h with h; subst h
    show countCommas (joinComma (fieldsOf row)) ≤ cc
    unfold fieldsOf
    rw [joinComma_splitComma]
    omega

theorem mapE_ok_mem {f : List Str → Except PyErr (List Str)}
    {rs : List (List Str)} {ts : List (List Str)} (h : mapE f rs = .ok ts) :
    ∀ t ∈ ts, ∃ r ∈ rs, f r = .ok t := by
  induction rs generalizing ts with
  | nil =>
    simp only [mapE] at h
    injection h with h; subst h
    simp
  | cons r rs ih =>
    simp only [mapE] at h
    cases hr : f r with
    | error e => simp [hr] at h
    | ok r' =>
      simp only [hr] at h
      cases hm : mapE f rs with
      | error e => simp [hm] at h
      | ok rs' =>
        simp only [hm] at h
        injection h with h; subst h
        intro t ht
        rcases List.mem_cons.mp ht with rfl | ht
        · exact ⟨r, by simp, hr⟩
        · obtain ⟨q, hq, hfq⟩ := ih hm t ht
          exact ⟨q, by simp [hq], hfq⟩

theorem mapE_ok_iff {f : List Str → Except PyErr (List Str)} {rs : List (List Str)} :
    (∃ ts, mapE f rs = .ok ts) ↔ ∀ r ∈ rs, ∃ t, f r = .ok t := by
  induction rs with
  | nil => simp [mapE]
  | cons r rs ih =>
    constructor
    · rintro ⟨ts, h⟩
      simp only [mapE] at h
      cases hr : f r with
      | error e => simp [hr] at h
      | ok r' =>
        simp only [hr] at h
        cases hm : mapE f rs with
        | error e => simp [hm] at h
        | ok rs' =>
          intro q hq
          rcases List.mem_cons.mp hq with rfl | hq
          · exact ⟨r', hr⟩
          · exact (ih.mp ⟨rs', hm⟩) q hq
    · intro hall
      obtain ⟨t, ht⟩ := hall r (by simp)
      obtain ⟨ts, hts⟩ := ih.mpr (fun q hq => hall q (by simp [hq]))
      exact ⟨t :: ts, by simp [mapE, ht, hts]⟩

theorem mapE_error_iff {f : List Str → Except PyErr (List Str)}
    {rs : List (List Str)} {e : PyErr} :
    mapE f rs = .error e ↔
      ∃ pre r post, rs = pre ++ r :: post ∧
        (∀ r' ∈ pre, ∃ t, f r' = .ok t) ∧ f r = .error e := by
  induction rs with
  | nil =>
    constructor
    · intro h; simp [mapE] at h
    · rintro ⟨pre, r, post, hsplit, -, -⟩
      exact absurd hsplit.symm (by simp)
  | cons a rs ih =>
    constructor
    · intro h
      simp only [mapE] at h
      cases ha : f a with
      | error e' =>
        simp only [ha] at h
        injection h with h; subst h
        exact ⟨[], a, rs, by simp, by simp, ha⟩
      | ok a' =>
        simp only [ha] at h
        cases hm : mapE f rs with
        | error e' =>
          simp only [hm] at h
          injection h with h; subst h
          obtain ⟨pre, r, post, hsplit, hpre, hr⟩ := ih.mp hm
          refine ⟨a :: pre, r, post, by simp [hsplit], ?_, hr⟩
          intro r' hr'
          rcases List.mem_cons.mp hr' with rfl | hr'
          · exact ⟨a', ha⟩
          · exact hpre r' hr'
        | ok rs' => simp [hm] at h
    · rintro ⟨pre, r, post, hsplit, hpre, hr⟩
      cases pre with
      | nil =>
        simp only [List.nil_append] at hsplit
        injection hsplit with h1 h2
        subst h1; subst h2
        simp [mapE, hr]
      | cons p pre' =>
        simp only [List.cons_append] at hsplit
        injection hsplit with h1 h2
        subst h1; subst h2
        obtain ⟨t, ht⟩ := hpre a (by simp)
        have hrec : mapE f (pre' ++ r :: post) = .error e :=
          ih.mpr ⟨pre', r, post, rfl, fun q hq => hpre q (by simp [hq]), hr⟩
        simp [mapE, ht, hrec]

theorem fixRow_valueError_iff (cc : Nat) (row : List Str) :
    fixRow cc row = .error .valueError ↔
      cc < countCommas (joinComma row) ∧
        ∃ c0 restParts parts, commentSlice row = c0 :: restParts ∧
          mergeComments c0 restParts = .ok parts ∧ 2 < parts.length := by
  unfold fixRow
  by_cases hgt : cc < countCommas (joinComma row)
  · rw [if_pos hgt]
    simp only [hgt, true_and]
    cases hcs : commentSlice row with
    | nil =>
      constructor
      · intro hc; injection hc with hc; exact absurd hc (by decide)
      · rintro ⟨c0, rp, parts, heq, -, -⟩
        exact absurd heq (by simp)
    | cons c0 rp =>
      cases hm : mergeComments c0 rp with
      | error e =>
        have hne := mergeComments_ne_valueError c0 rp
        rw [hm] at hne
        simp only [hm]
        constructor
        · intro hc; exact absurd hc hne
        · rintro ⟨c0', rp', parts, heq, hmc, -⟩
          injection heq with h1 h2
          subst h1; subst h2
          rw [hm] at hmc
          exact absurd hmc (by simp)
      | ok parts =>
        simp only [hm]
        by_cases hlen : 2 < parts.length
        · rw [if_pos hlen]
          exact ⟨fun _ => ⟨c0, rp, parts, rfl, hm, hlen⟩, fun _ => rfl⟩
        · rw [if_neg hlen]
          constructor
          · intro hc; exact absurd hc (by simp)
          · rintro ⟨c0', rp', parts', heq, hmc, hlen'⟩
            injection heq with h1 h2
            subst h1; subst h2
            rw [hm] at hmc
            injection hmc with hmc
            subst hmc
            exact absurd hlen' hlen
  · rw [if_neg hgt]
    constructor
    · intro hc; exact absurd hc (by simp)
    · rintro ⟨hlt, -⟩
      exact absurd hlt hgt

/-- **C1** (amended).  For a header row whose comma-joined form has at least
17 commas, `replace_comma_in_comments` returns only rows whose comma-joined
form has at most as many commas as the joined header: unchanged rows keep
their comma count, and repaired rows collapse to the 14 leading fields, at
most two merged comment fields, and the two trailing fields. -/
theorem replace_comma_in_comments_bounded_by_header
    (header : List Str) (rest out : List (List Str))
    (hcc : 17 ≤ countCommas (joinComma header))
    (h : replace_comma_in_comments (header :: rest) = .ok out) :
    ∀ row ∈ out, countCommas (joinComma row) ≤ countCommas (joinComma header) := by
  simp only [replace_comma_in_comments] at h
  cases hm : mapE (fixRow (countCommas (joinComma header))) rest with
  | error e => simp [hm] at h
  | ok t =>
    simp only [hm] at h
    injection h with h; subst h
    intro row hrow
    rcases List.mem_cons.mp hrow with rfl | hrow
    · exact le_refl _
    · obtain ⟨r, -, hfr⟩ := mapE_ok_mem hm row hrow
      exact fixRow_ok_bound hcc hfr

theorem replace_comma_in_comments_bounded_by_header_witness :
    countCommas (joinComma (List.replicate 14 (toL "a") ++
      [toL "x; 1; 2; 3", toL "e", toL "f"])) ≤
      countCommas (joinComma (List.replicate 19 (toL "h"))) :=
  replace_comma_in_comments_bounded_by_header
    (List.replicate 19 (toL "h"))
    [List.replicate 14 (toL "a") ++
      [toL "x", toL " 1", toL " 2", toL " 3", toL "e", toL "f"]]
    [List.replicate 19 (toL "h"),
      List.replicate 14 (toL "a") ++ [toL "x; 1; 2; 3", toL "e", toL "f"]]
    (by decide) (by decide) _ (by decide)

/-- **C1** counterexample to the claim as stated: a 17-field header row
(16 commas) followed by a 19-field data row whose comment fields merge to
two parts.  The call succeeds, but the repaired row joins to 17 commas,
exceeding the header's 16. -/
theorem replace_comma_in_comments_exceeds_short_header :
    replace_comma_in_comments
      [List.replicate 17 (toL "h"),
        List.replicate 14 (toL "a") ++ [toL "x", toL " y", toL "z", toL "e1", toL "e2"]] =
      .ok [List.replicate 17 (toL "h"),
        List.replicate 14 (toL "a") ++ [toL "x; y", toL "z", toL "e1", toL "e2"]] ∧
    countCommas (joinComma (List.replicate 17 (toL "h"))) = 16 ∧
    countCommas (joinComma (List.replicate 14 (toL "a") ++
      [toL "x; y", toL "z", toL "e1", toL "e2"])) = 17 :=
  ⟨by decide, by decide, by decide⟩

/-- **C9** (amended).  `replace_comma_in_comments` returns normally exactly
when every data row is repaired without an exception; it raises ValueError
exactly when the first failing data row has more commas than the header and
its comment fields merge (successfully) to more than two parts.  Rows with
more commas than the header whose comment slice is empty, or whose merge
inspects an empty previous part, raise IndexError instead. -/
theorem replace_comma_in_comments_error_characterization
    (header : List Str) (rest : List (List Str)) :
    ((∃ out, replace_comma_in_comments (header :: rest) = .ok out) ↔
      ∀ r ∈ rest, ∃ l, fixRow (countCommas (joinComma header)) r = .ok l)
    ∧ (replace_comma_in_comments (header :: rest) = .error .valueError ↔
      ∃ pre r post, rest = pre ++ r :: post ∧
        (∀ r' ∈ pre, ∃ l, fixRow (countCommas (joinComma header)) r' = .ok l) ∧
        countCommas (joinComma header) < countCommas (joinComma r) ∧
        ∃ c0 restParts parts, commentSlice r = c0 :: restParts ∧
          mergeComments c0 restParts = .ok parts ∧ 2 < parts.length) := by
  constructor
  · constructor
    · rintro ⟨out, h⟩
      simp only [replace_comma_in_comments] at h
      cases hm : mapE (fixRow (countCommas (joinComma header))) rest with
      | error e => simp [hm] at h
      | ok t => exact mapE_ok_iff.mp ⟨t, hm⟩
    · intro hall
      obtain ⟨ts, hts⟩ := mapE_ok_iff.mpr hall
      exact ⟨header :: ts, by simp [replace_comma_in_comments, hts]⟩
  · constructor
    · intro h
      simp only [replace_comma_in_comments] at h
      cases hm : mapE (fixRow (countCommas (joinComma header))) rest with
      | error e =>
        simp only [hm] at h
        injection h with h; subst h
        obtain ⟨pre, r, post, hsplit, hpre, hr⟩ := mapE_error_iff.mp hm
        rw [fixRow_valueError_iff] at hr
        exact ⟨pre, r, post, hsplit, hpre, hr.1, hr.2⟩
      | ok t => simp [hm] at h
    · rintro ⟨pre, r, post, hsplit, hpre, hlt, hmerge⟩
      have hr : fixRow (countCommas (joinComma header)) r = .error .valueError :=
        (fixRow_valueError_iff _ r).mpr ⟨hlt, hmerge⟩
      have hm : mapE (fixRow (countCommas (joinComma header))) rest = .error .valueError :=
        mapE_error_iff.mpr ⟨pre, r, post, hsplit, hpre, hr⟩
      simp [replace_comma_in_comments, hm]

/-- **C9** counterexample to the claim as stated: a data row with more
commas than the header but fewer than 17 fields makes the comment slice
`[14:-2]` empty; indexing `comment_parts[0]` then raises IndexError, so the
function neither raises ValueError nor returns normally. -/
theorem replace_comma_in_comments_raises_indexError :
    replace_comma_in_comments [[toL "a", toL "b"], [toL "x", toL "y", toL "z"]] =
      .error .indexError := by decide

/-- Python's `re.match("\d{4}-\d{2}-\d{2}", s)` used by `fix_linebreaks`:
a prefix match requiring the first ten characters to be four digits, a
dash, two digits, a dash, and two digits. -/
def matchesDate : Str → Bool
  | a :: b :: c :: d :: e :: f :: g :: h :: i :: j :: _ =>
    a.isDigit && b.isDigit && c.isDigit && d.isDigit && (e == '-') &&
    f.isDigit && g.isDigit && (h == '-') && i.isDigit && j.isDigit
  | _ => false

/-- The merge of a continuation row into the last accumulated row in
`fix_linebreaks`: `last_line[:-1] + [". ".join([last_line[-1], c0])] + ctail`.
Indexing `last_line[-1]` of an empty row raises IndexError. -/
def mergeInto (last : List Str) (c0 : Str) (ctail : List Str) :
    Except PyErr (List Str) :=
  match last.getLast? with
  | none => .error .indexError
  | some lf => .ok (last.dropLast ++ (lf ++ '.' :: ' ' :: c0) :: ctail)

/-- The loop of `fix_linebreaks`: `acc ++ [last]` is `fixed_lines` with
`last` the row merges apply to.  An empty row takes the *next* row from the
iterator and merges it (StopIteration at the end of input); a nonempty row
whose first field does not match the date pattern is merged; other rows are
appended. -/
def flAux (acc : List (List Str)) (last : List Str) :
    List (List Str) → Except PyErr (List (List Str))
  | [] => .ok (acc ++ [last])
  | line :: rest =>
    match line with
    | [] =>
      match rest with
      | [] => .error .stopIteration
      | next :: rest' =>
        match next with
        | [] => .error .indexError
        | c0 :: ctail =>
          match mergeInto last c0 ctail with
          | .error e => .error e
          | .ok newLast => flAux acc newLast rest'
    | c0 :: ctail =>
      if matchesDate c0 then flAux (acc ++ [last]) line rest
      else
        match mergeInto last c0 ctail with
        | .error e => .error e
        | .ok newLast => flAux acc newLast rest

/-- `fix_linebreaks`: the first row is taken as the initial accumulated row
(StopIteration on empty input) and the loop processes the remaining rows. -/
def fix_linebreaks : List (List Str) → Except PyErr (List (List Str))
  | [] => .error .stopIteration
  | header :: rest => flAux [] header rest

example :
    fix_linebreaks
      [[toL "h"], [toL "2022-01-01", toL "a", toL "b"], [],
        [toL "2022-01-02", toL "c", toL "d"]] =
      .ok [[toL "h"],
        [toL "2022-01-01", toL "a", toL "b. 2022-01-02", toL "c", toL "d"]] := by
  decide

example : fix_linebreaks [[toL "h"], []] = .error .stopIteration := by decide

example : fix_linebreaks [[toL "h"], [], []] = .error .indexError := by decide

theorem matchesDate_append {f : Str} (t : Str) (h : matchesDate f = true) :
    matchesDate (f ++ t) = true := by
  rcases f with _ | ⟨a, _ | ⟨b, _ | ⟨c, _ | ⟨d, _ | ⟨e, _ | ⟨f', _ | ⟨g, _ |
    ⟨h', _ | ⟨i, _ | ⟨j, rest⟩⟩⟩⟩⟩⟩⟩⟩⟩⟩ <;> simp_all [matchesDate]

theorem mergeInto_preserves {last newLast : List Str} {c0 : Str} {ctail : List Str}
    (h : mergeInto last c0 ctail = .ok newLast)
    (hP : matchesDate (last.headD []) = true) :
    matchesDate (newLast.headD []) = true := by
  unfold mergeInto at h
  cases hl : last.getLast? with
  | none => simp [hl] at h
  | some lf =>
    simp only [hl] at h
    injection h with h; subst h
    cases last with
    | nil => simp at hl
    | cons x xs =>
      cases xs with
      | nil =>
        simp only [List.getLast?_singleton, Option.some.injEq] at hl
        subst hl
        simp only [List.headD_cons] at hP
        simpa using matchesDate_append _ hP
      | cons y ys =>
        simp only [List.headD_cons] at hP
        simpa [List.dropLast] using hP

theorem flAux_dates (acc : List (List Str)) (last : List Str)
    (rows : List (List Str)) :
    ∀ out, flAux acc last rows = .ok out →
      (∀ r ∈ acc.tail, matchesDate (r.headD []) = true) →
      (acc ≠ [] → matchesDate (last.headD []) = true) →
      ∀ r ∈ out.tail, matchesDate (r.headD []) = true := by
  induction acc, last, rows using flAux.induct with
  | case1 acc last =>
    intro out h hacc hlast
    simp only [flAux] at h
    injection h with h; subst h
    cases acc with
    | nil => simp
    | cons a as =>
      intro r hr
      simp only [List.cons_append, List.tail_cons] at hr
      rcases List.mem_append.mp hr with hr | hr
      · exact hacc r (by simpa using hr)
      · simp only [List.mem_singleton] at hr
        subst hr
        exact hlast (by simp)
  | case2 acc last =>
    intro out h
    simp [flAux] at h
  | case3 acc last rest' =>
    intro out h
    simp [flAux] at h
  | case4 acc last rest' c0 ctail e hmerge =>
    intro out h
    simp [flAux, hmerge] at h
  | case5 acc last rest' c0 ctail newLast hmerge ih =>
    intro out h hacc hlast
    simp only [flAux, hmerge] at h
    exact ih out h hacc (fun hne => mergeInto_preserves hmerge (hlast hne))
  | case6 acc last rest c0 ctail hdate ih =>
    intro out h hacc hlast
    simp only [flAux, hdate, if_true] at h
    refine ih out h ?_ ?_
    · intro r hr
      cases acc with
      | nil => simp at hr
      | cons a as =>
        simp only [List.cons_append, List.tail_cons] at hr
        rcases List.mem_append.mp hr with hr | hr
        · exact hacc r (by simpa using hr)
        · simp only [List.mem_singleton] at hr
          subst hr
          exact hlast (by simp)
    · intro _
      simpa using hdate
  | case7 acc last rest c0 ctail hdate e hmerge =>
    intro out h
    simp [flAux, hdate, hmerge] at h
  | case8 acc last rest c0 ctail hdate newLast hmerge ih =>
    intro out h hacc hlast
    simp only [flAux, hdate, hmerge] at h
    exact ih out h hacc (fun hne => mergeInto_preserves hmerge (hlast hne))

/-- **C2** (amended).  When `fix_linebreaks` returns normally, every output
row after the first starts with a field whose first ten characters match
the `\d{4}-\d{2}-\d{2}` date pattern; continuation rows (nonempty rows
without that prefix, and the row following an empty row) are merged into
the preceding accumulated row — including into the first row. -/
theorem fix_linebreaks_tail_rows_dated (rows out : List (List Str))
    (h : fix_linebreaks rows = .ok out) :
    ∀ r ∈ out.tail, matchesDate (r.headD []) = true := by
  cases rows with
  | nil => simp [fix_linebreaks] at h
  | cons header rest =>
    exact flAux_dates [] header rest out h (by simp) (by simp)

theorem fix_linebreaks_tail_rows_dated_witness :
    matchesDate (([toL "2021-03-04", toL "a. c", toL "d"] : List Str).headD []) =
      true :=
  fix_linebreaks_tail_rows_dated
    [[toL "h"], [toL "2021-03-04", toL "a"], [toL "c", toL "d"]]
    [[toL "h"], [toL "2021-03-04", toL "a. c", toL "d"]]
    (by decide) _ (by decide)

/-- **C2** counterexample to the claim as stated: a continuation row right
after the header is merged into the header row itself, so the first row is
not kept as-is. -/
theorem fix_linebreaks_modifies_header :
    fix_linebreaks [[toL "h1", toL "h2"], [toL "c", toL "d"]] =
      .ok [[toL "h1", toL "h2. c", toL "d"]] ∧
    [toL "h1", toL "h2. c", toL "d"] ≠ [toL "h1", toL "h2"] :=
  ⟨by decide, by decide⟩

/-- Python's `s.replace(old, new)` for nonempty `old`: replace all
non-overlapping occurrences from left to right, continuing after each
replacement.  Structural recursion on a fuel that always suffices because
every step consumes at least one character. -/
def replaceAllFuel : Nat → Str → Str → Str → Str
  | 0, s, _, _ => s
  | _ + 1, [], _, _ => []
  | fuel + 1, c :: cs, old, new =>
    if old ≠ [] ∧ old.isPrefixOf (c :: cs) then
      new ++ replaceAllFuel fuel ((c :: cs).drop old.length) old new
    else c :: replaceAllFuel fuel cs old new

/-- Python's `s.replace(old, new)` (for the nonempty patterns used here). -/
def replaceAll (s old new : Str) : Str := replaceAllFuel (s.length + 1) s old new

/-- Python's `needle in haystack` substring test. -/
def containsSub (needle : Str) : Str → Bool
  | [] => needle.isEmpty
  | c :: t => needle.isPrefixOf (c :: t) || containsSub needle t

/-- The exception set `{"Lunges", "Raises"}` of `singularize`. -/
def pluralExceptions : List Str := [toL "Lunges", toL "Raises"]

/-- The exception loop of `singularize`: for every exception contained in
the key, the value is overwritten with
`exercise.replace(exception[:-2], exception[:-1])` — note that the
replacement is applied to the *plural key*, not to the singular value. -/
def exceptionFix (e : Str) (v : Str) : Str :=
  pluralExceptions.foldl
    (fun acc exc =>
      if containsSub exc e then replaceAll e exc.dropLast.dropLast exc.dropLast
      else acc) v

/-- `singularize`: names ending in "es" map to the name without the final
two letters, names ending in "s" but not "ss" map to the name without the
final letter, and then the exception loop rewrites the values of keys
containing "Lunges" or "Raises". -/
def singularize (exercises : List Str) : List (Str × Str) :=
  (exercises.filterMap (fun e =>
    if (toL "es").isSuffixOf e then some (e, e.dropLast.dropLast)
    else if (toL "s").isSuffixOf e ∧ ¬ (toL "ss").isSuffixOf e then
      some (e, e.dropLast)
    else none)).map (fun p => (p.1, exceptionFix p.1 p.2))

example : singularize [toL "Curls", toL "Press", toL "Dip"] =
    [(toL "Curls", toL "Curl")] := by decide

/-- **C3**: the code evaluated at the failing input.  `singularize` maps
"Side Lunges" to "Side Lungees" — `"Side Lunges".replace("Lung", "Lunge")`
applied to the plural key — instead of the intended singular form
"Side Lunge" that keeps the trailing "e". -/
theorem singularize_lunges_not_singular :
    singularize [toL "Side Lunges"] = [(toL "Side Lunges", toL "Side Lungees")] ∧
    toL "Side Lungees" ≠ toL "Side Lunge" :=
  ⟨by decide, by decide⟩

/-- pandas `Series.replace(mapping)` applied to one value of the Exercise
Name column: a value equal to a key of the mapping becomes that key's
value, every other value is unchanged. -/
def aliasOne (m : List (Str × Str)) (s : Str) : Str := ((m.lookup s).getD s)

/-- pandas `Series.replace(mapping)` on the whole Exercise Name column. -/
def applyAlias (m : List (Str × Str)) (col : List Str) : List Str :=
  col.map (aliasOne m)

/-- pandas `Series.nunique`: the number of distinct values of a column. -/
def distinctCount (col : List Str) : Nat := col.toFinset.card

/-- `map_gymbook_to_progression` from the notebook. -/
def map_gymbook_to_progression : List (Str × Str) := [
  (toL "Ab Wheel", toL "Ab Roller"),
  (toL "Alternating Dumbbell Preacher Curl", toL "Alternating Dumbbell Curl"),
  (toL "Arnold Press", toL "Arnold Dumbbell Press (Seated)"),
  (toL "Back Extension", toL "Machine Hyperextension"),
  (toL "Bulgarian Split Squat ", toL "Bulgarian Split Squat"),
  (toL "Cable Fly", toL "Cable Back Fly"),
  (toL "Calf Press in Leg Press", toL "Machine Calf Press"),
  (toL "Chin-Up", toL "Chinup"),
  (toL "Concentration Curl", toL "Dumbbell Concentration Curl"),
  (toL "Crunch", toL "Weighted Crunch"),
  (toL "Decline Push-Up", toL "Decline Pushup"),
  (toL "Dumbbell Lateral Raise", toL "Dumbbell Side Raise"),
  (toL "Dumbbell Press", toL "Dumbbell Shoulder Press"),
  (toL "Dumbbell Row", toL "Bent-Over Dumbbell Row"),
  (toL "Dumbbell Skullcrusher", toL "Lying Dumbbell Skull Crusher"),
  (toL "Hammer Curl", toL "Dumbbell Hammer Curl"),
  (toL "Kneeling Cable Crunch", toL "Cable Crunch"),
  (toL "Lat Pull-Down", toL "Machine Lat Pulldown"),
  (toL "Leg Extension", toL "Machine Leg Extension"),
  (toL "Leg Press", toL "Machine Leg Press"),
  (toL "Low Cable One-Arm Lateral Raise", toL "Cable Side Raise"),
  (toL "Lying Dumbbell Triceps Extension", toL "Dumbbell Triceps Extension"),
  (toL "Lying EZ-Bar Triceps Extension", toL "Lying Barbell Skull Crusher"),
  (toL "Lying Leg Curl", toL "Machine Lying Leg Curl"),
  (toL "Machine Back Extension", toL "Machine Hyperextension"),
  (toL "Machine Hip Abduction", toL "Machine Thigh Abduction (Out)"),
  (toL "Machine Trunk Rotation", toL "Torso Rotation Machine"),
  (toL "One-Leg Leg Extension", toL "Machine Single-Leg Extension"),
  (toL "Power Clean", toL "Barbell Power Clean"),
  (toL "Pullups Weighted ", toL "Weighted Pullup"),
  (toL "Push Down", toL "Cable Pushdown (with Bar Handle)"),
  (toL "Push Press", toL "Barbell Push Press"),
  (toL "Push-Up", toL "Pushup"),
  (toL "Seated Leg Curl", toL "Machine Leg Curl"),
  (toL "Seated Machine Hip Abduction", toL "Machine Thigh Abduction (Out)"),
  (toL "Seated Machine Row", toL "Machine Row"),
  (toL "Standing Calf Raise", toL "Machine Calf Raise"),
  (toL "Standing Machine Calf Raise", toL "Machine Calf Raise"),
  (toL "Wide-Grip Lat Pull-Down", toL "Wide-Grip Machine Lat Pulldown")]

/-- `map_progression_to_gymbook` from the notebook. -/
def map_progression_to_gymbook : List (Str × Str) := [
  (toL "Barbell Curl", toL "EZ-Bar Curl"),
  (toL "Bent-Over Barbell Row", toL "Barbell Row"),
  (toL "Butterfly Reverse", toL "Reverse Machine Fly"),
  (toL "Cable Row", toL "Seated Cable Row"),
  (toL "Dumbbell Pullover (Targeting back)", toL "Dumbbell Lat Pullover"),
  (toL "Farmer's Walk (with Dumbbells)", toL "Farmers Walk"),
  (toL "Farmer's Walk (with Weight Plate)", toL "Farmers Walk"),
  (toL "Machine Calf Press", toL "Calf Press In Leg Press"),
  (toL "Press around", toL "Press Around"),
  (toL "Romanian Deadlift", toL "Barbell Romanian Deadlift"),
  (toL "Stiff-Leg Deadlift (Wide Stance)", toL "Straight-Leg Barbell Deadlift"),
  (toL "Sumo Deadlift", toL "Barbell Sumo Deadlift"),
  (toL "Weighted pistol squat", toL "Pistol squat")]

/-- `map_rename_in_both` from the notebook (the duplicated
"Machine Bench Press" entry of the dict literal is kept; both occurrences
carry the same value). -/
def map_rename_in_both : List (Str × Str) := [
  (toL "Close-Grip Lat Pull-Down", toL "Close-Grip Machine Lat Pull-Down"),
  (toL "Machine Bench Press", toL "Seated Machine Bench Press"),
  (toL "Parallel Bar Dip", toL "Dip"),
  (toL "Barbell Shrug (Behind the Back)", toL "Barbell Shrug"),
  (toL "Chest Dip", toL "Dip"),
  (toL "Machine Bench Press", toL "Seated Machine Bench Press")]

theorem toFinset_map_eq_image (f : Str → Str) (l : List Str) :
    (l.map f).toFinset = l.toFinset.image f := by
  induction l with
  | nil => simp
  | cons a l ih => simp [ih]

theorem lookup_eq_none_of_not_key {m : List (Str × Str)} {s : Str}
    (hs : s ∉ m.map Prod.fst) : m.lookup s = none := by
  induction m with
  | nil => rfl
  | cons kv m ih =>
    obtain ⟨k, v⟩ := kv
    simp only [List.map_cons, List.mem_cons, not_or] at hs
    obtain ⟨h1, h2⟩ := hs
    simp only [List.lookup, beq_eq_false_iff_ne.mpr h1]
    exact ih h2

/-- **C4**.  Applying any of the alias replacement maps to the Exercise
Name column never increases the number of distinct names (the replaced
column is an image of the original), and a name that is not a key of the
applied map is left unchanged. -/
theorem applyAlias_distinct_le (m : List (Str × Str)) (col : List Str) (s : Str)
    (hm : m = map_gymbook_to_progression ∨ m = map_progression_to_gymbook ∨
      m = map_rename_in_both ∨ ∃ gymbookNames, m = singularize gymbookNames)
    (hs : s ∉ m.map Prod.fst) :
    distinctCount (applyAlias m col) ≤ distinctCount col ∧ aliasOne m s = s := by
  constructor
  · unfold distinctCount applyAlias
    rw [toFinset_map_eq_image]
    exact Finset.card_image_le
  · unfold aliasOne
    rw [lookup_eq_none_of_not_key hs]
    rfl

theorem applyAlias_distinct_le_witness :
    distinctCount (applyAlias map_rename_in_both
      [toL "Chest Dip", toL "Parallel Bar Dip", toL "Barbell Squat"]) ≤
      distinctCount [toL "Chest Dip", toL "Parallel Bar Dip", toL "Barbell Squat"] ∧
    aliasOne map_rename_in_both (toL "Barbell Squat") = toL "Barbell Squat" :=
  applyAlias_distinct_le map_rename_in_both
    [toL "Chest Dip", toL "Parallel Bar Dip", toL "Barbell Squat"]
    (toL "Barbell Squat")
    (Or.inr (Or.inr (Or.inl rfl))) (by decide)

/-- A row of the cleaned per-app frames at the merge step: its timestamp,
its possibly missing Weight, and the remaining per-row data. -/
structure PRow where
  time : Int
  weight : Option ℚ
  payload : Nat
deriving DecidableEq

/-- Descending order on the Time column, `sort_values("Time", ascending=False)`. -/
def timeDesc (a b : PRow) : Prop := b.time ≤ a.time

instance : DecidableRel timeDesc :=
  fun a b => inferInstanceAs (Decidable (b.time ≤ a.time))

instance : IsTotal PRow timeDesc := ⟨fun a b => le_total b.time a.time⟩

instance : IsTrans PRow timeDesc := ⟨fun _ _ _ h1 h2 => le_trans h2 h1⟩

/-- `df["Weight"].fillna(0)` on one row. -/
def fillWeight (r : PRow) : PRow := { r with weight := some (r.weight.getD 0) }

/-- The merge cell: `pd.concat([df_progression, df_gymbook])`, then
`sort_values("Time", ascending=False)`, then `fillna(0)` on Weight. -/
def mergeFrames (p g : List PRow) : List PRow :=
  ((p ++ g).insertionSort timeDesc).map fillWeight

/-- **C5**.  The unified table is a permutation of the rows of both input
frames (with Weight filled), it is ordered by Time in descending order, and
it has no missing Weight values. -/
theorem mergeFrames_spec (p g : List PRow) :
    (mergeFrames p g).Perm ((p ++ g).map fillWeight) ∧
    (mergeFrames p g).Pairwise timeDesc ∧
    ∀ r ∈ mergeFrames p g, r.weight ≠ none := by
  refine ⟨?_, ?_, ?_⟩
  · exact List.Perm.map fillWeight (List.perm_insertionSort timeDesc (p ++ g))
  · exact List.Pairwise.map _ (fun a b h => h)
      (List.sorted_insertionSort timeDesc (p ++ g))
  · intro r hr
    simp only [mergeFrames, List.mem_map] at hr
    obtain ⟨q, -, rfl⟩ := hr
    simp [fillWeight]

/-- A set row as used by `calculate_volumne`: integer Repetitions and
float Weight. -/
structure SetRow where
  repetitions : Int
  weight : ℚ

/-- `calculate_volumne`: `(group["Repetitions"] * group["Weight"]).sum()` —
the columns are multiplied elementwise and then summed. -/
def calculate_volumne (group : List SetRow) : ℚ :=
  (List.zipWith (fun x y => x * y)
    (group.map (fun r => (r.repetitions : ℚ)))
    (group.map (fun r => r.weight))).sum

/-- **C8**.  The training volume of a group of sets equals the sum over the
group of the per-set products repetitions × weight. -/
theorem calculate_volumne_eq_sum (group : List SetRow) :
    calculate_volumne group =
      (group.map (fun r => (r.repetitions : ℚ) * r.weight)).sum := by
  unfold calculate_volumne
  induction group with
  | nil => simp
  | cons r rs ih => simp [ih]

/-- A GymBook row at the skipped-set cleaning step: its pandas index label,
the `Ausgelassen` column, and the remaining per-row data. -/
structure BRow where
  label : Nat
  ausgelassen : Str
  payload : Nat
deriving DecidableEq

/-- `remove_skipped_sets`: select the rows with `Ausgelassen == "Ja"` and
drop them from the frame by their index labels. -/
def remove_skipped_sets (df : List BRow) : List BRow :=
  let skipped := df.filter (fun r => r.ausgelassen == toL "Ja")
  df.filter (fun r => !(skipped.any (fun q => q.label == r.label)))

/-- **C10**.  On a frame with unique index labels (as produced by
`read_csv`), `remove_skipped_sets` removes exactly the rows whose
`Ausgelassen` column equals "Ja", keeping the others unchanged and in
order; a frame with no such rows is returned equal to its input. -/
theorem remove_skipped_sets_spec (df : List BRow)
    (hnodup : (df.map BRow.label).Nodup) :
    remove_skipped_sets df = df.filter (fun r => !(r.ausgelassen == toL "Ja")) ∧
    (df.filter (fun r => r.ausgelassen == toL "Ja") = [] →
      remove_skipped_sets df = df) := by
  have hinj : ∀ x ∈ df, ∀ y ∈ df, x.label = y.label → x = y := by
    intro x hx y hy hxy
    exact List.inj_on_of_nodup_map hnodup hx hy hxy
  have hmain : remove_skipped_sets df =
      df.filter (fun r => !(r.ausgelassen == toL "Ja")) := by
    unfold remove_skipped_sets
    refine List.filter_congr ?_
    intro r hr
    congr 1
    by_cases hja : r.ausgelassen = toL "Ja"
    · have hrhs : (r.ausgelassen == toL "Ja") = true := by simp [hja]
      rw [hrhs]
      have hmem : r ∈ df.filter (fun q => q.ausgelassen == toL "Ja") :=
        List.mem_filter.mpr ⟨hr, by simp [hja]⟩
      exact List.any_eq_true.mpr ⟨r, hmem, by simp⟩
    · have hrhs : (r.ausgelassen == toL "Ja") = false := by
        simpa using hja
      rw [hrhs]
      rw [← Bool.not_eq_true]
      simp only [List.any_eq_true, not_exists]
      rintro q ⟨hq, hql⟩
      obtain ⟨hqdf, hqja⟩ := List.mem_filter.mp hq
      have hqr : q = r := hinj q hqdf r hr (by simpa using hql)
      subst hqr
      exact hja (by simpa using hqja)
  refine ⟨hmain, ?_⟩
  intro hempty
  rw [hmain]
  refine List.filter_eq_self.mpr ?_
  intro r hr
  by_contra hcon
  have hja : r.ausgelassen = toL "Ja" := by
    simpa using hcon
  have : r ∈ df.filter (fun q => q.ausgelassen == toL "Ja") :=
    List.mem_filter.mpr ⟨hr, by simp [hja]⟩
  rw [hempty] at this
  simp at this

theorem remove_skipped_sets_spec_witness :
    remove_skipped_sets
      [⟨0, toL "Ja", 1⟩, ⟨1, toL "Nein", 2⟩, ⟨2, toL "Ja", 3⟩] =
      ([⟨0, toL "Ja", 1⟩, ⟨1, toL "Nein", 2⟩,
        ⟨2, toL "Ja", 3⟩] : List BRow).filter
        (fun r => !(r.ausgelassen == toL "Ja")) ∧
    (([⟨0, toL "Ja", 1⟩, ⟨1, toL "Nein", 2⟩,
        ⟨2, toL "Ja", 3⟩] : List BRow).filter
        (fun r => r.ausgelassen == toL "Ja") = [] →
      remove_skipped_sets
        [⟨0, toL "Ja", 1⟩, ⟨1, toL "Nein", 2⟩, ⟨2, toL "Ja", 3⟩] =
        [⟨0, toL "Ja", 1⟩, ⟨1, toL "Nein", 2⟩, ⟨2, toL "Ja", 3⟩]) :=
  remove_skipped_sets_spec
    [⟨0, toL "Ja", 1⟩, ⟨1, toL "Nein", 2⟩, ⟨2, toL "Ja", 3⟩] (by decide)

/-- The decimal value of a string of digit characters. -/
def natOfDigits (ds : Str) : Nat :=
  ds.foldl (fun acc c => 10 * acc + (c.toNat - '0'.toNat)) 0

/-- Leftmost match of the regex `(\d+)` used by
`df["Repetitions"].str.extract`. -/
def firstDigitRun : Str → Option Str
  | [] => none
  | c :: cs =>
    if c.isDigit then some ((c :: cs).takeWhile Char.isDigit)
    else firstDigitRun cs

/-- `df["Repetitions"].str.extract("(\d+)").astype(int)` per entry; `none`
models the NaN on which `astype(int)` fails. -/
def convertReps (s : Str) : Option Nat := (firstDigitRun s).map natOfDigits

/-- Leftmost match of the regex `(\d+,\d+)` used by
`df["Weight"].str.extract`: at each starting position the maximal digit run
must be followed by a comma and a further digit run. -/
def firstCommaNum : Str → Option (Str × Str)
  | [] => none
  | c :: cs =>
    if c.isDigit then
      match (c :: cs).dropWhile Char.isDigit with
      | ',' :: d :: ds =>
        if d.isDigit then
          some ((c :: cs).takeWhile Char.isDigit, (d :: ds).takeWhile Char.isDigit)
        else firstCommaNum cs
      | _ => firstCommaNum cs
    else firstCommaNum cs

/-- `df["Weight"].str.extract("(\d+,\d+)").replace(",", ".").astype(float)`
per entry, with the comma read as a decimal point. -/
def convertWeight (s : Str) : Option ℚ :=
  (firstCommaNum s).map (fun p =>
    (natOfDigits p.1 : ℚ) + (natOfDigits p.2 : ℚ) / (10 : ℚ) ^ p.2.length)

/-- The GymBook frame at the `adapt_columns` step: its column labels and
the raw string entries of the two coerced columns. -/
structure GBFrame where
  columns : List Str
  repetitions : List Str
  weight : List Str

/-- The frame after `adapt_columns`. -/
structure GBFrameTyped where
  columns : List Str
  repetitions : List (Option Nat)
  weight : List (Option ℚ)

/-- The `column_name_mapping` dict of `rename_columns`. -/
def column_name_mapping : List (Str × Str) := [
  (toL "Datum", toL "Date"),
  (toL "Training", toL "Workout Name"),
  (toL "Zeit", toL "Set Timestamp"),
  (toL "Übung", toL "Exercise Name"),
  (toL "Wiederholungen / Zeit", toL "Repetitions"),
  (toL "Gewicht / Strecke", toL "Weight"),
  (toL "Notizen", toL "Set Comment")]

/-- `df.rename(columns=column_name_mapping)` on one column label. -/
def renameColumn (c : Str) : Str := ((column_name_mapping.lookup c).getD c)

/-- `adapt_columns`: rename the GymBook column labels and coerce the
Repetitions and Weight columns. -/
def adapt_columns (f : GBFrame) : GBFrameTyped :=
  ⟨f.columns.map renameColumn,
    f.repetitions.map convertReps,
    f.weight.map convertWeight⟩

theorem firstDigitRun_eq (s : Str) (hs : ∃ ch ∈ s, ch.isDigit = true) :
    firstDigitRun s =
      some ((s.dropWhile (fun ch => !ch.isDigit)).takeWhile Char.isDigit) := by
  induction s with
  | nil => simp at hs
  | cons c cs ih =>
    by_cases hc : c.isDigit
    · simp [firstDigitRun, hc, List.dropWhile_cons]
    · obtain ⟨ch, hch, hd⟩ := hs
      rcases List.mem_cons.mp hch with rfl | hch
      · exact absurd hd hc
      · simp only [firstDigitRun, hc, if_false, Bool.false_eq_true]
        rw [List.dropWhile_cons]
        simp only [hc, Bool.not_false, if_true, Bool.not_eq_true']
        exact ih ⟨ch, hch, hd⟩

theorem firstCommaNum_spec :
    ∀ (t a b : Str), firstCommaNum t = some (a, b) →
      a ≠ [] ∧ (∀ ch ∈ a, ch.isDigit = true) ∧ b ≠ [] ∧
      (∀ ch ∈ b, ch.isDigit = true) ∧ ∃ u v, t = u ++ a ++ ',' :: b ++ v := by
  intro t
  induction t with
  | nil => intro a b h; simp [firstCommaNum] at h
  | cons c cs ih =>
    intro a b h
    have hstep : firstCommaNum cs = some (a, b) →
        a ≠ [] ∧ (∀ ch ∈ a, ch.isDigit = true) ∧ b ≠ [] ∧
        (∀ ch ∈ b, ch.isDigit = true) ∧
        ∃ u v, c :: cs = u ++ a ++ ',' :: b ++ v := by
      intro hrec
      obtain ⟨ha, hda, hb, hdb, u, v, huv⟩ := ih a b hrec
      exact ⟨ha, hda, hb, hdb, c :: u, v, by simp [huv]⟩
    by_cases hc : c.isDigit
    · simp only [firstCommaNum, hc, if_true] at h
      split at h
      next d ds heq =>
        by_cases hd : d.isDigit
        · rw [if_pos hd] at h
          injection h with h
          injection h with h1 h2
          subst h1; subst h2
          refine ⟨?_, ?_, ?_, ?_, ?_⟩
          · simp [List.takeWhile_cons, hc]
          · intro ch hch
            exact List.mem_takeWhile_imp hch
          · simp [List.takeWhile_cons, hd]
          · intro ch hch
            exact List.mem_takeWhile_imp hch
          · refine ⟨[], (d :: ds).dropWhile Char.isDigit, ?_⟩
            have e1 : (c :: cs).takeWhile Char.isDigit ++
                (c :: cs).dropWhile Char.isDigit = c :: cs :=
              List.takeWhile_append_dropWhile Char.isDigit (c :: cs)
            have e2 : (d :: ds).takeWhile Char.isDigit ++
                (d :: ds).dropWhile Char.isDigit = d :: ds :=
              List.takeWhile_append_dropWhile Char.isDigit (d :: ds)
            rw [List.nil_append]
            conv_lhs => rw [← e1, heq, ← e2]
            simp [List.cons_append, List.append_assoc]
        · rw [if_neg hd] at h
          exact hstep h
      next =>
        exact hstep h
    · simp only [firstCommaNum, hc, if_false, Bool.false_eq_true] at h
      exact hstep h

/-- **C7**.  `adapt_columns` renames exactly the seven German GymBook
column labels to their Progression counterparts and leaves every other
label unchanged; a Repetitions entry containing a digit is converted to the
integer read from its first run of digits, and a Weight entry on which the
`(\d+,\d+)` extraction succeeds is converted to the rational read from
that first `digits,digits` occurrence with the comma as a decimal point
(the matched parts being nonempty digit runs occurring contiguously,
separated by the comma, inside the entry). -/
theorem adapt_columns_spec (f : GBFrame) (c s t a b : Str)
    (hc : c ∉ column_name_mapping.map Prod.fst)
    (hs : ∃ ch ∈ s, ch.isDigit = true)
    (ht : firstCommaNum t = some (a, b)) :
    (adapt_columns f).columns = f.columns.map renameColumn ∧
    (adapt_columns f).repetitions = f.repetitions.map convertReps ∧
    (adapt_columns f).weight = f.weight.map convertWeight ∧
    (∀ kv ∈ column_name_mapping, renameColumn kv.1 = kv.2) ∧
    renameColumn c = c ∧
    convertReps s = some (natOfDigits
      ((s.dropWhile (fun ch => !ch.isDigit)).takeWhile Char.isDigit)) ∧
    convertWeight t = some ((natOfDigits a : ℚ) +
      (natOfDigits b : ℚ) / (10 : ℚ) ^ b.length) ∧
    a ≠ [] ∧ (∀ ch ∈ a, ch.isDigit = true) ∧ b ≠ [] ∧
    (∀ ch ∈ b, ch.isDigit = true) ∧ ∃ u v, t = u ++ a ++ ',' :: b ++ v := by
  obtain ⟨ha, hda, hb, hdb, hinf⟩ := firstCommaNum_spec t a b ht
  refine ⟨rfl, rfl, rfl, by decide, ?_, ?_, ?_, ha, hda, hb, hdb, hinf⟩
  · unfold renameColumn
    rw [lookup_eq_none_of_not_key hc]
    rfl
  · unfold convertReps
    rw [firstDigitRun_eq s hs]
    rfl
  · unfold convertWeight
    rw [ht]
    rfl

theorem adapt_columns_spec_witness :
    convertReps (toL "12x") = some 12 ∧
    convertWeight (toL "3,5 kg") = some ((natOfDigits (toL "3") : ℚ) +
      (natOfDigits (toL "5") : ℚ) / (10 : ℚ) ^ (toL "5").length) ∧
    renameColumn (toL "Foo") = toL "Foo" := by
  have h := adapt_columns_spec
    ⟨[toL "Datum", toL "Übung", toL "Foo"], [toL "12x"], [toL "3,5 kg"]⟩
    (toL "Foo") (toL "12x") (toL "3,5 kg") (toL "3") (toL "5")
    (by decide) (by decide) (by decide)
  refine ⟨?_, h.2.2.2.2.2.2.1, h.2.2.2.2.1⟩
  rw [h.2.2.2.2.2.1]
  decide

/-- A GymBook row at the `extend_gymbook_df` step: its timestamp (seconds)
and its Exercise Name. -/
structure GRow where
  time : Nat
  name : Str
deriving DecidableEq

/-- A GymBook row extended with the two computed columns. -/
structure GRowExt where
  time : Nat
  name : Str
  sessionDuration : Nat
  setOrder : Nat
deriving DecidableEq

/-- `Time.dt.date`: the calendar day of a timestamp. -/
def dateOf (t : Nat) : Nat := t / 86400

/-- The timestamps of all rows sharing a row's calendar date:
the group of `df.groupby(df["Time"].dt.date)` containing the row. -/
def sameDateTimes (df : List GRow) (r : GRow) : List Nat :=
  (df.filter (fun x => dateOf x.time == dateOf r.time)).map GRow.time

/-- `x.max()` of a group of timestamps. -/
def maxTime (ts : List Nat) : Nat := ts.foldl Nat.max 0

/-- `x.min()` of a group of timestamps. -/
def minTime : List Nat → Nat
  | [] => 0
  | t :: ts => ts.foldl Nat.min t

/-- `extend_gymbook_df`: every row receives `Session Duration (s)` as the
`.dt.seconds` component (mod 86400) of `max - min` over its calendar-date
group, and `Set Order` as `groupby([date, "Exercise Name"]).cumcount() + 1`
— one more than the number of earlier rows in its (date, name) group. -/
def extend_gymbook_df (df : List GRow) : List GRowExt :=
  df.enum.map (fun p =>
    { time := p.2.time
      name := p.2.name
      sessionDuration :=
        (maxTime (sameDateTimes df p.2) - minTime (sameDateTimes df p.2)) % 86400
      setOrder :=
        ((df.take p.1).filter (fun x =>
          dateOf x.time == dateOf p.2.time && x.name == p.2.name)).length + 1 })

theorem mem_sameDateTimes_bounds {df : List GRow} {r : GRow} {t : Nat}
    (ht : t ∈ sameDateTimes df r) :
    86400 * dateOf r.time ≤ t ∧ t < 86400 * dateOf r.time + 86400 := by
  unfold sameDateTimes at ht
  obtain ⟨x, hx, rfl⟩ := List.mem_map.mp ht
  have hd : dateOf x.time = dateOf r.time := by
    simpa using (List.mem_filter.mp hx).2
  unfold dateOf at hd ⊢
  have h1 := Nat.div_add_mod x.time 86400
  have h2 : x.time % 86400 < 86400 := Nat.mod_lt _ (by omega)
  omega

theorem foldl_max_lt {B : Nat} :
    ∀ (ts : List Nat) (a : Nat), a < B → (∀ t ∈ ts, t < B) →
      ts.foldl Nat.max a < B := by
  intro ts
  induction ts with
  | nil => intro a ha _; simpa using ha
  | cons t ts ih =>
    intro a ha hall
    simp only [List.foldl_cons]
    exact ih (Nat.max a t) (Nat.max_lt.mpr ⟨ha, hall t (by simp)⟩)
      (fun q hq => hall q (by simp [hq]))

theorem foldl_min_ge {L : Nat} :
    ∀ (ts : List Nat) (a : Nat), L ≤ a → (∀ t ∈ ts, L ≤ t) →
      L ≤ ts.foldl Nat.min a := by
  intro ts
  induction ts with
  | nil => intro a ha _; simpa using ha
  | cons t ts ih =>
    intro a ha hall
    simp only [List.foldl_cons]
    exact ih (Nat.min a t) (Nat.le_min.mpr ⟨ha, hall t (by simp)⟩)
      (fun q hq => hall q (by simp [hq]))

theorem sameDate_span_lt (df : List GRow) (r : GRow) :
    maxTime (sameDateTimes df r) - minTime (sameDateTimes df r) < 86400 := by
  cases hts : sameDateTimes df r with
  | nil => simp [maxTime, minTime]
  | cons t ts =>
    have hbounds : ∀ q ∈ sameDateTimes df r,
        86400 * dateOf r.time ≤ q ∧ q < 86400 * dateOf r.time + 86400 :=
      fun q hq => mem_sameDateTimes_bounds hq
    rw [hts] at hbounds
    have hmax : maxTime (t :: ts) < 86400 * dateOf r.time + 86400 := by
      unfold maxTime
      exact foldl_max_lt (t :: ts) 0 (by omega)
        (fun q hq => (hbounds q hq).2)
    have hmin : 86400 * dateOf r.time ≤ minTime (t :: ts) := by
      unfold minTime
      exact foldl_min_ge ts t (hbounds t (by simp)).1
        (fun q hq => (hbounds q (by simp [hq])).1)
    omega

theorem countP_take_orders (p : GRow → Bool) :
    ∀ (l pre : List GRow),
      ((l.enumFrom pre.length).filter (fun q => p q.2)).map
        (fun q => ((pre ++ l).take q.1).countP p + 1) =
      List.range' (pre.countP p + 1) (l.countP p) := by
  intro l
  induction l with
  | nil => intro pre; simp [List.enumFrom]
  | cons r rest ih =>
    intro pre
    rw [List.enumFrom_cons]
    have hlist : pre ++ r :: rest = (pre ++ [r]) ++ rest := by simp
    by_cases hp : p r
    · rw [List.filter_cons_of_pos (by simpa using hp)]
      simp only [List.map_cons]
      have htail := ih (pre ++ [r])
      have hlen : (pre ++ [r]).length = pre.length + 1 := by simp
      rw [hlen] at htail
      rw [← hlist] at htail
      rw [htail]
      rw [List.take_left pre (r :: rest)]
      have hcnt : (pre ++ [r]).countP p = pre.countP p + 1 := by
        rw [List.countP_append]
        simp [hp]
      rw [hcnt]
      rw [List.countP_cons_of_pos p rest hp]
      rw [List.range'_succ]
    · rw [List.filter_cons_of_neg (by simpa using hp)]
      have htail := ih (pre ++ [r])
      have hlen : (pre ++ [r]).length = pre.length + 1 := by simp
      rw [hlen] at htail
      rw [← hlist] at htail
      rw [htail]
      have hcnt : (pre ++ [r]).countP p = pre.countP p := by
        rw [List.countP_append]
        simp [hp]
      rw [hcnt]
      rw [List.countP_cons_of_neg p rest (by simpa using hp)]

theorem extend_setOrders (df : List GRow) (d : Nat) (n : Str) :
    ((extend_gymbook_df df).filter
      (fun x => dateOf x.time == d && x.name == n)).map GRowExt.setOrder =
    List.range' 1 (df.countP (fun x => dateOf x.time == d && x.name == n)) := by
  unfold extend_gymbook_df
  rw [List.filter_map, List.map_map]
  show (df.enum.filter
      (fun q : Nat × GRow => dateOf q.2.time == d && q.2.name == n)).map
      (fun q : Nat × GRow => ((df.take q.1).filter (fun x =>
        dateOf x.time == dateOf q.2.time && x.name == q.2.name)).length + 1) =
    List.range' 1 (df.countP (fun x => dateOf x.time == d && x.name == n))
  have hfun : ∀ q ∈ df.enum.filter
      (fun q : Nat × GRow => dateOf q.2.time == d && q.2.name == n),
      ((df.take q.1).filter (fun x =>
        dateOf x.time == dateOf q.2.time && x.name == q.2.name)).length + 1 =
      (df.take q.1).countP (fun x => dateOf x.time == d && x.name == n) + 1 := by
    intro q hq
    have hq2 := (List.mem_filter.mp hq).2
    simp only [Bool.and_eq_true, beq_iff_eq] at hq2
    obtain ⟨hqd, hqn⟩ := hq2
    rw [List.countP_eq_length_filter]
    rw [hqd, hqn]
  rw [List.map_congr_left hfun]
  have key := countP_take_orders
    (fun x => dateOf x.time == d && x.name == n) df []
  simp only [List.length_nil, List.nil_append, List.countP_nil] at key
  rw [Nat.zero_add] at key
  exact key

/-- **C6**.  `extend_gymbook_df` assigns each row a Session Duration equal
to the difference between the latest and earliest set time of its calendar
date (so all sets of one date share the value and a single-set date gets
0), and a Set Order that numbers the rows of each (date, exercise name)
group consecutively from 1 in row order. -/
theorem extend_gymbook_df_spec (df : List GRow) (i d : Nat) (n : Str)
    (h1 : i < df.length) (h2 : i < (extend_gymbook_df df).length) :
    ((extend_gymbook_df df).get ⟨i, h2⟩).sessionDuration =
      maxTime (sameDateTimes df (df.get ⟨i, h1⟩)) -
        minTime (sameDateTimes df (df.get ⟨i, h1⟩)) ∧
    ((extend_gymbook_df df).filter
      (fun x => dateOf x.time == d && x.name == n)).map GRowExt.setOrder =
    List.range' 1 (df.countP (fun x => dateOf x.time == d && x.name == n)) := by
  refine ⟨?_, extend_setOrders df d n⟩
  simp only [List.get_eq_getElem, extend_gymbook_df, List.getElem_map,
    List.getElem_enum]
  exact Nat.mod_eq_of_lt (sameDate_span_lt df _)

theorem extend_gymbook_df_spec_witness :
    ((extend_gymbook_df [⟨100, toL "S"⟩, ⟨200, toL "S"⟩]).filter
      (fun x => dateOf x.time == 0 && x.name == toL "S")).map
        GRowExt.setOrder =
    List.range' 1 (([⟨100, toL "S"⟩, ⟨200, toL "S"⟩] : List GRow).countP
      (fun x => dateOf x.time == 0 && x.name == toL "S")) :=
  (extend_gymbook_df_spec [⟨100, toL "S"⟩, ⟨200, toL "S"⟩] 1 0 (toL "S")
    (by decide) (by decide)).2

end FitnessJourney
